import Mathlib

/-
Verification of the lever configuration-parameter resolver (lever.go).

The Go code is shallowly embedded: strings are Lean Strings, the found
maps (Go map[string][]string) are functions String → Option (List String),
Go panics are modelled as Option none / missing results, and fallible
parses return Except.  All character-level helpers mirror the behavior of
the Go standard-library calls used by the source on the ASCII alphabet
the claims range over.
-/

set_option maxRecDepth 10000

namespace Lever

/-- The characters Go strings.TrimSpace removes, restricted to ASCII
(the Unicode space classes are outside the alphabet of this model). -/
def isSpc (c : Char) : Bool :=
  c = ' ' || c = '\t' || c = '\n' || c = '\r' || c = '\x0b' || c = '\x0c'

/-- strings.TrimSpace at the character-list level: drop spaces from both
ends. -/
def trimC (cs : List Char) : List Char :=
  ((cs.dropWhile isSpc).reverse.dropWhile isSpc).reverse

/-- strings.SplitN(s, sep, 2) for a one-character separator: none when
the separator is absent, otherwise the pieces before and after its first
occurrence. -/
def splitFirstC (c : Char) : List Char → Option (List Char × List Char)
  | [] => none
  | x :: xs =>
    if x = c then some ([], xs)
    else (splitFirstC c xs).map (fun r => (x :: r.1, r.2))

/-- Param from lever.go.  The Description field only feeds the help and
example renderers, which the spec excludes, so it is omitted. -/
structure Param where
  Name : String
  Aliases : List String
  Default : String
  DefaultMulti : Option (List String)
  Flag : Bool
  DisallowInConfigFile : Bool
deriving DecidableEq

/-- Param.configName: the Name with every leading character that is
neither a letter nor a digit stripped (unicode.IsLetter/IsNumber,
restricted to ASCII). -/
def configNameStr (s : String) : String :=
  ⟨s.data.dropWhile (fun c => !(c.isAlpha || c.isDigit))⟩

/-- Param.flagDefault: whether the Default string is exactly "true". -/
def flagDefault (p : Param) : Bool :=
  p.Default == "true"

/-- The expectedFull lookup: a token name resolves to the parameter whose
Name or alias it equals.  The Go code stores this in a map built by Add;
with the (assumed, as in Go) absence of name/alias collisions the first
match in the registry list is that map lookup. -/
def lookupFull (ps : List Param) (n : String) : Option Param :=
  ps.find? (fun p => p.Name == n || p.Aliases.contains n)

/-- A Resolved Value Set: Go map[string][]string. -/
def Found : Type := String → Option (List String)

/-- The empty found map. -/
def emptyFound : Found := fun _ => none

/-- found[n] = append(found[n], v): appending to a missing key starts
from the empty list. -/
def updAppend (found : Found) (n v : String) : Found :=
  fun k => if k = n then some (((found n).getD []) ++ [v]) else found k

/-- argParts := strings.SplitN(arg, "=", 2): the name part together with
the inline value when the token contains an equals sign. -/
def splitEq (s : String) : String × Option String :=
  match splitFirstC '=' s.data with
  | none => (s, none)
  | some (k, v) => (⟨k⟩, some ⟨v⟩)

/-- Lever.readCLI, as a left-to-right scan carrying the found map and the
remainder accumulator.  A token equal to "--" flushes everything after it
into the remainder; an unmatched name keeps the original token in the
remainder; a flag records its non-default state ignoring any inline
value; a non-flag takes the inline value, else consumes the next token,
else records the empty string. -/
def readCLIAux (ps : List Param) : List String → Found → List String → Found × List String
  | [], found, remaining => (found, remaining)
  | arg :: args, found, remaining =>
    if arg = "--" then (found, remaining ++ args)
    else
      let an := splitEq arg
      match lookupFull ps an.1 with
      | none => readCLIAux ps args found (remaining ++ [arg])
      | some p =>
        if p.Flag then
          readCLIAux ps args
            (updAppend found p.Name (if flagDefault p then "false" else "true")) remaining
        else
          match an.2 with
          | some v => readCLIAux ps args (updAppend found p.Name v) remaining
          | none =>
            match args with
            | [] => readCLIAux ps [] (updAppend found p.Name "") remaining
            | v :: args2 => readCLIAux ps args2 (updAppend found p.Name v) remaining

/-- Lever.readCLI from an empty scan state. -/
def readCLI (ps : List Param) (args : List String) : Found × List String :=
  readCLIAux ps args emptyFound []

/-- The line loop of Lever.readConfig: bufio ReadString reads through
each newline; the loop breaks at io.EOF, so a final chunk with no
terminating newline is dropped without being processed.  Each produced
line is returned without its newline terminator, which TrimSpace would
have removed in the very next statement of the source. -/
def linesAux (acc : List Char) : List Char → List (List Char)
  | [] => []
  | c :: cs => if c = '\n' then acc :: linesAux [] cs else linesAux (acc ++ [c]) cs

/-- The sequence of newline-terminated lines the readConfig loop
processes for a given stream. -/
def configLinesD (s : String) : List (List Char) :=
  linesAux [] s.data

/-- The suffix-match loop of readConfig: the value is appended under
every expected Name that ends with the key (strings.HasSuffix(n, name)).
Go iterates the expected map in unspecified order, but each iteration
touches only its own Name, so the list order here is immaterial. -/
def cfgRecord (key : List Char) (val : String) : List Param → Found → Found
  | [], found => found
  | p :: ps, found =>
    if key.isSuffixOf p.Name.data then cfgRecord key val ps (updAppend found p.Name val)
    else cfgRecord key val ps found

/-- Lever.readConfig over the processed lines: trim, skip blank and
hash-led lines, split on the first colon (a line with none is a fatal
error quoting the trimmed line), trim the value and record it under
every suffix-matching Name. -/
def readConfigLines (ps : List Param) : List (List Char) → Found → Except String Found
  | [], found => .ok found
  | l :: ls, found =>
    let t := trimC l
    if t = [] then readConfigLines ps ls found
    else if t.head? = some '#' then readConfigLines ps ls found
    else
      match splitFirstC ':' t with
      | none => .error ("could not parse line: " ++ (⟨t⟩ : String))
      | some kv => readConfigLines ps ls (cfgRecord kv.1 (⟨trimC kv.2⟩ : String) ps found)

/-- Lever.readConfig on a whole stream. -/
def readConfig (ps : List Param) (s : String) : Except String Found :=
  readConfigLines ps (configLinesD s) emptyFound

/-- envify applied characterwise: strings.ToUpper then
strings.Replace(s, "-", "_", -1); uppercasing never produces a dash, so
the two passes fuse into one map. -/
def envChar (c : Char) : Char :=
  let u := c.toUpper
  if u = '-' then '_' else u

/-- envify from lever.go. -/
def envifyStr (s : String) : String :=
  ⟨s.data.map envChar⟩

/-- The expected environment key of a parameter:
envify(appName) + "_" + envify(p.configName()). -/
def envKeyStr (appName : String) (p : Param) : String :=
  envifyStr appName ++ "_" ++ envifyStr (configNameStr p.Name)

/-- Lever.readEnv over the environment list.  Each entry is split on the
first equals sign; an entry without one makes parts[1] an out-of-range
index, a Go panic, modelled as none.  The Go code precomputes the
expectedEnv reverse map; under registries whose derived keys are
distinct that map lookup is the first match in the registry list. -/
def readEnvAux (appName : String) (ps : List Param) : List String → Found → Option Found
  | [], found => some found
  | e :: es, found =>
    match splitFirstC '=' e.data with
    | none => none
    | some kv =>
      match ps.find? (fun p => envKeyStr appName p == (⟨kv.1⟩ : String)) with
      | some p => readEnvAux appName ps es (updAppend found p.Name (⟨kv.2⟩ : String))
      | none => readEnvAux appName ps es found

/-- Lever.readEnv from an empty found map. -/
def readEnv (appName : String) (ps : List Param) (environ : List String) : Option Found :=
  readEnvAux appName ps environ emptyFound

/-- Lever.defaultsAsFound: a non-nil DefaultMulti (even empty) is the
found entry; otherwise a non-empty Default becomes a one-element entry;
otherwise the parameter is absent. -/
def defaultsAsFound (ps : List Param) : Found := fun n =>
  match ps.find? (fun p => p.Name == n) with
  | none => none
  | some p =>
    match p.DefaultMulti with
    | some dm => some dm
    | none => if p.Default = "" then none else some [p.Default]

/-- Keep the first present entry. -/
def orO (a b : Option (List String)) : Option (List String) :=
  match a with
  | some vs => some vs
  | none => b

/-- mergeFound(into, from): names already present in the target are left
untouched, every other name has its whole value list copied in. -/
def mergeFound (into frm : Found) : Found :=
  fun n => orO (into n) (frm n)

/-- The merge order of Lever.Parse: command line, then environment, then
config file, then defaults. -/
def FinalMerge (cli env file defs : Found) : Found :=
  mergeFound (mergeFound (mergeFound cli env) file) defs

/-- Lever.Parse without the os plumbing: the config source is a Found
already read from the file (emptyFound when no file is given, matching
the Go no-op merge of a nil map), and the help/example early exits are
outside the claims.  The environment-entry panic of readEnv propagates
as none. -/
def ParseSim (appName : String) (ps : List Param) (args environ : List String)
    (file : Found) : Option (Found × List String) :=
  let fr := readCLI ps args
  match readEnv appName ps environ with
  | none => none
  | some fenv => some (FinalMerge fr.1 fenv file (defaultsAsFound ps), fr.2)

/-- Lever.paramSingleStr: a present key yields its first value; vs[0] on
a present but empty list is an out-of-range Go panic, modelled as none;
a missing key yields the empty string and false. -/
def paramSingleStr (found : Found) (name : String) : Option (String × Bool) :=
  match found name with
  | some vs => vs.head?.map (fun v => (v, true))
  | none => some ("", false)

/-- Lever.ParamStr. -/
def ParamStr (found : Found) (name : String) : Option (String × Bool) :=
  paramSingleStr found name

/-- Lever.ParamStrs: a missing key yields the empty list and false. -/
def ParamStrs (found : Found) (name : String) : List String × Bool :=
  match found name with
  | some vs => (vs, true)
  | none => ([], false)

/-- Digits of a base-10 literal, none when empty or non-numeric. -/
def digitsToNat (ds : List Char) : Option Nat :=
  if ds.isEmpty then none
  else
    ds.foldl
      (fun acc c =>
        acc.bind (fun a => if c.isDigit then some (a * 10 + (c.toNat - '0'.toNat)) else none))
      (some 0)

/-- strconv.Atoi: optional sign then base-10 digits.  The Go 64-bit
overflow failure is outside the claims and not modelled. -/
def Atoi (s : String) : Option Int :=
  match s.data with
  | [] => none
  | '-' :: ds => (digitsToNat ds).map (fun n => -(n : Int))
  | '+' :: ds => (digitsToNat ds).map (fun n => (n : Int))
  | ds => (digitsToNat ds).map (fun n => (n : Int))

/-- Lever.ParamInt: not-found and unparsable values both report
(0, false); the paramSingleStr panic propagates. -/
def ParamInt (found : Found) (name : String) : Option (Int × Bool) :=
  match paramSingleStr found name with
  | none => none
  | some vb =>
    if !vb.2 then some (0, false)
    else
      match Atoi vb.1 with
      | none => some (0, false)
      | some i => some (i, true)

/-- Lever.ParamFlag: the first resolved value (ok discarded); an unknown
name falls back to value-nonempty; otherwise empty or "false" yields the
declared flag default and anything else its negation.  The
paramSingleStr panic propagates. -/
def ParamFlag (ps : List Param) (found : Found) (name : String) : Option Bool :=
  match paramSingleStr found name with
  | none => none
  | some vb =>
    match lookupFull ps name with
    | none => some (vb.1 != "")
    | some p =>
      if vb.1 == "" || vb.1 == "false" then some (flagDefault p)
      else some (!flagDefault p)

/-- The --config parameter auto-added by New when config files are
allowed. -/
def configParamOf (defaultConfigFile : String) : Param :=
  ⟨"--config", ["-config"], defaultConfigFile, none, false, true⟩

/-- The --example parameter auto-added by New when config files are
allowed. -/
def exampleParam : Param :=
  ⟨"--example", ["-example"], "", none, true, true⟩

/-- The --help parameter always added by New. -/
def helpParam : Param :=
  ⟨"--help", ["-help", "-h"], "", none, true, true⟩

/-- The registry New builds before the user Add calls, followed by the
user parameters.  Go stores them in a map keyed by Name; the list stands
for that map under the registries without duplicate names the claims
speak of. -/
def NewParams (disallowConfigFile : Bool) (defaultConfigFile : String)
    (userParams : List Param) : List Param :=
  (if disallowConfigFile then [] else [configParamOf defaultConfigFile, exampleParam])
    ++ [helpParam] ++ userParams

/-- The matching rule as the spec words it, for comparison with the rule
readConfig implements: the key is tested as a suffix of the file-name
form of the parameter (its Name with leading delimiters stripped). -/
def specConfigMatch (p : Param) (key : String) : Bool :=
  key.data.isSuffixOf (configNameStr p.Name).data

/-- The found map inside a config parse result, none on error. -/
def foundOf (r : Except String Found) (n : String) : Option (List String) :=
  match r with
  | .ok m => m n
  | .error _ => none

/-- A registry of one flag parameter declared with Default "true",
alongside the help parameter New always adds. -/
def regFlagTrue : List Param :=
  NewParams true "" [⟨"--f", [], "true", none, true, false⟩]

/-- A one-parameter registry used in the config-file counterexamples. -/
def regBar : List Param :=
  [⟨"--bar", [], "", none, false, false⟩]

/-- A registry containing a parameter literally named "--". -/
def regDashDash : List Param :=
  [⟨"--", [], "", none, false, false⟩]

/-- A registry with one parameter declared with an empty non-nil
DefaultMulti. -/
def regByz : List Param :=
  NewParams true "" [⟨"--byz", [], "", some [], false, false⟩]

/-- A processed line the parser must reject: non-empty after trimming,
not a comment, and with no colon to split on. -/
abbrev MalformedLine (l : List Char) : Prop :=
  trimC l ≠ [] ∧ (trimC l).head? ≠ some '#' ∧ splitFirstC ':' (trimC l) = none

/-- A non-empty list as a present map entry, the empty list as
absence. -/
def listToOpt : List String → Option (List String)
  | [] => none
  | vs => some vs

/-- Append newly scanned values to an optional existing entry: an
absent entry stays absent only when nothing arrives. -/
def appOpt (o : Option (List String)) (l : List String) : Option (List String) :=
  match o with
  | some vs => some (vs ++ l)
  | none => listToOpt l

/-- A config line key and value pair in the shape the stream-level
theorems quantify over: the key is non-empty, no comment marker, free of
colon and newline, the value is newline-free, and both are already in
trimmed form so that trimming the assembled line keeps it intact. -/
abbrev WfKV (kv : String × String) : Prop :=
  kv.1 ≠ "" ∧ kv.1.data.head? ≠ some '#' ∧ ':' ∉ kv.1.data
    ∧ '\n' ∉ kv.1.data ∧ '\n' ∉ kv.2.data
    ∧ trimC (kv.1.data ++ ':' :: kv.2.data) = kv.1.data ++ ':' :: kv.2.data
    ∧ trimC kv.2.data = kv.2.data

/-- The character stream of a config file with one key: value line per
pair, each newline-terminated. -/
def mkConfigData : List (String × String) → List Char
  | [] => []
  | kv :: kvs => (kv.1.data ++ ':' :: kv.2.data) ++ '\n' :: mkConfigData kvs

/-- The config file stream assembled from key and value pairs. -/
def mkConfig (kvs : List (String × String)) : String :=
  ⟨mkConfigData kvs⟩

/-- The values a parameter collects from a list of config lines under
the rule readConfig implements: one value per line whose key is a suffix
of the raw Name, in line order. -/
def cfgCollect (p : Param) (kvs : List (String × String)) : List String :=
  kvs.filterMap (fun kv => if kv.1.data.isSuffixOf p.Name.data then some kv.2 else none)

/-- The values a parameter collects from the environment under exact
equality with its derived key, in scan order. -/
def envCollect (appName : String) (p : Param) (environ : List String) : List String :=
  environ.filterMap (fun e =>
    match splitFirstC '=' e.data with
    | none => none
    | some kv =>
      if (⟨kv.1⟩ : String) = envKeyStr appName p then some (⟨kv.2⟩ : String) else none)

/-- A parameter with a dashed name, as in the environment-matching
example of the spec. -/
def fooBarP : Param := ⟨"--foo-bar", [], "", none, false, false⟩

/-- The first-occurrence split finds nothing exactly when the separator
is absent. -/
theorem splitFirstC_eq_none_iff (c : Char) (xs : List Char) :
    splitFirstC c xs = none ↔ c ∉ xs := by
  induction xs with
  | nil => simp [splitFirstC]
  | cons x xs ih =>
    by_cases h : x = c
    · subst h
      simp [splitFirstC]
    · have hcx : ¬c = x := fun hc => h hc.symm
      simp [splitFirstC, h, Option.map_eq_none', ih, hcx]

/-- The first-occurrence split at an explicit first occurrence. -/
theorem splitFirstC_append (c : Char) (xs ys : List Char) (h : c ∉ xs) :
    splitFirstC c (xs ++ c :: ys) = some (xs, ys) := by
  induction xs with
  | nil => simp [splitFirstC]
  | cons x xs ih =>
    have hx : x ≠ c := fun he => h (he ▸ List.mem_cons_self x xs)
    have hm : c ∉ xs := fun hc => h (List.mem_cons_of_mem x hc)
    simp [splitFirstC, hx, ih hm]

/-- A stream with no newline yields no processed line at all. -/
theorem linesAux_no_newline (acc xs : List Char) (h : '\n' ∉ xs) :
    linesAux acc xs = [] := by
  induction xs generalizing acc with
  | nil => rfl
  | cons x xs ih =>
    have hx : x ≠ '\n' := fun he => h (he ▸ List.mem_cons_self x xs)
    have hm : '\n' ∉ xs := fun hc => h (List.mem_cons_of_mem x hc)
    simp [linesAux, hx, ih _ hm]

/-- Appending newline-free characters leaves the processed lines
unchanged: they only grow the chunk the io.EOF break discards. -/
theorem linesAux_append_no_newline (acc xs ys : List Char) (h : '\n' ∉ ys) :
    linesAux acc (xs ++ ys) = linesAux acc xs := by
  induction xs generalizing acc with
  | nil => simpa [linesAux] using linesAux_no_newline acc ys h
  | cons x xs ih =>
    by_cases hx : x = '\n'
    · subst hx
      simp [linesAux, ih]
    · simp [linesAux, hx, ih]

/-- A newline-free chunk followed by a newline flushes as one processed
line. -/
theorem linesAux_flush (acc line rest : List Char) (h : '\n' ∉ line) :
    linesAux acc (line ++ '\n' :: rest) = (acc ++ line) :: linesAux [] rest := by
  induction line generalizing acc with
  | nil => simp [linesAux]
  | cons x xs ih =>
    have hx : x ≠ '\n' := fun he => h (he ▸ List.mem_cons_self x xs)
    have hm : '\n' ∉ xs := fun hc => h (List.mem_cons_of_mem x hc)
    simp only [List.cons_append, linesAux, if_neg hx, List.append_eq]
    rw [ih (acc ++ [x]) hm]
    simp

/-- Appending nothing changes nothing. -/
theorem appOpt_nil (o : Option (List String)) : appOpt o [] = o := by
  cases o <;> simp [appOpt, listToOpt]

/-- Appending one value to an optional entry is the Go
append(found[n], v). -/
theorem appOpt_single (o : Option (List String)) (v : String) :
    appOpt o [v] = some (o.getD [] ++ [v]) := by
  cases o <;> simp [appOpt, listToOpt]

/-- Appending values one at a time agrees with appending them at
once. -/
theorem appOpt_cons (o : Option (List String)) (v : String) (l : List String) :
    appOpt (appOpt o [v]) l = appOpt o (v :: l) := by
  cases o <;> simp [appOpt, listToOpt]

/-- The suffix-match pass leaves names outside the registry alone. -/
theorem cfgRecord_not_mem (key : List Char) (val : String) :
    ∀ (ps : List Param) (found : Found) (n : String), n ∉ ps.map Param.Name →
      cfgRecord key val ps found n = found n := by
  intro ps
  induction ps with
  | nil => intro _ _ _; rfl
  | cons q ps ih =>
    intro found n hn
    have hn1 : n ≠ q.Name := fun he => hn (by simp [he])
    have hn2 : n ∉ ps.map Param.Name := fun hm => hn (by simp [hm])
    unfold cfgRecord
    by_cases hs : key.isSuffixOf q.Name.data = true
    · rw [if_pos hs, ih _ _ hn2]
      unfold updAppend
      rw [if_neg hn1]
    · rw [if_neg hs]
      exact ih _ _ hn2

/-- What one suffix-match pass leaves at a registered Name: the value is
appended exactly when the key is a suffix of that Name. -/
theorem cfgRecord_at (key : List Char) (val : String) :
    ∀ (ps : List Param) (found : Found) (p : Param), p ∈ ps → (ps.map Param.Name).Nodup →
      cfgRecord key val ps found p.Name
        = if key.isSuffixOf p.Name.data then some ((found p.Name).getD [] ++ [val])
          else found p.Name := by
  intro ps
  induction ps with
  | nil => intro _ p hp _; cases hp
  | cons q ps ih =>
    intro found p hp hnd
    rw [List.map_cons, List.nodup_cons] at hnd
    rcases List.mem_cons.mp hp with rfl | hps
    · unfold cfgRecord
      by_cases hs : key.isSuffixOf p.Name.data = true
      · rw [if_pos hs, cfgRecord_not_mem key val ps _ _ hnd.1, if_pos hs]
        unfold updAppend
        rw [if_pos rfl]
      · rw [if_neg hs, cfgRecord_not_mem key val ps _ _ hnd.1, if_neg hs]
    · have hpq : p.Name ≠ q.Name := fun he => hnd.1 (he ▸ List.mem_map_of_mem Param.Name hps)
      have hupd : updAppend found q.Name val p.Name = found p.Name := by
        unfold updAppend
        rw [if_neg hpq]
      unfold cfgRecord
      by_cases hs : key.isSuffixOf q.Name.data = true
      · rw [if_pos hs, ih _ p hps hnd.2, hupd]
      · rw [if_neg hs]
        exact ih _ p hps hnd.2

/-- Processing one assembled well-formed line is one suffix-match
pass. -/
theorem readConfigLines_cons_wf (ps : List Param) (k v : String) (ls : List (List Char))
    (found : Found) (hwf : WfKV (k, v)) :
    readConfigLines ps ((k.data ++ ':' :: v.data) :: ls) found
      = readConfigLines ps ls (cfgRecord k.data v ps found) := by
  have hk : k ≠ "" := hwf.1
  have hh : k.data.head? ≠ some '#' := hwf.2.1
  have hc : ':' ∉ k.data := hwf.2.2.1
  have ht : trimC (k.data ++ ':' :: v.data) = k.data ++ ':' :: v.data := hwf.2.2.2.2.2.1
  have htv : trimC v.data = v.data := hwf.2.2.2.2.2.2
  have hkd : k.data ≠ [] := by
    intro he
    exact hk (String.ext (he.trans rfl))
  have hne : k.data ++ ':' :: v.data ≠ [] := by
    cases hkd2 : k.data with
    | nil => exact absurd hkd2 hkd
    | cons a as => simp
  have hhd : (k.data ++ ':' :: v.data).head? ≠ some '#' := by
    intro hcon
    apply hh
    cases hkd2 : k.data with
    | nil => exact absurd hkd2 hkd
    | cons a as =>
      rw [hkd2] at hcon
      simpa using hcon
  simp only [readConfigLines, ht]
  rw [if_neg hne, if_neg hhd, splitFirstC_append ':' _ _ hc]
  show readConfigLines ps ls (cfgRecord k.data (⟨trimC v.data⟩ : String) ps found)
    = readConfigLines ps ls (cfgRecord k.data v ps found)
  rw [htv]

/-- The assembled stream splits back into exactly its lines. -/
theorem configLinesD_mkConfig :
    ∀ (kvs : List (String × String)), (∀ kv ∈ kvs, WfKV kv) →
      configLinesD (mkConfig kvs) = kvs.map (fun kv => kv.1.data ++ ':' :: kv.2.data) := by
  intro kvs
  induction kvs with
  | nil => intro _; rfl
  | cons kv kvs ih =>
    intro h
    have hwf := h kv (List.mem_cons_self _ _)
    have hnl : '\n' ∉ kv.1.data ++ ':' :: kv.2.data := by
      intro hm
      rcases List.mem_append.mp hm with h1 | h2
      · exact hwf.2.2.2.1 h1
      · rcases List.mem_cons.mp h2 with he | h3
        · exact absurd he (by decide)
        · exact hwf.2.2.2.2.1 h3
    show linesAux [] (mkConfigData (kv :: kvs)) = _
    simp only [mkConfigData]
    rw [linesAux_flush [] _ _ hnl]
    have ih2 : linesAux [] (mkConfigData kvs)
        = kvs.map (fun kv => kv.1.data ++ ':' :: kv.2.data) :=
      ih (fun x hx => h x (List.mem_cons_of_mem _ hx))
    rw [ih2]
    simp

/-- The line loop over assembled well-formed lines: every registered
Name ends up with its prior values extended by the suffix-matched values
in line order. -/
theorem readConfigLines_wf (ps : List Param) (hnd : (ps.map Param.Name).Nodup) :
    ∀ (kvs : List (String × String)) (found : Found), (∀ kv ∈ kvs, WfKV kv) →
      ∃ m, readConfigLines ps (kvs.map (fun kv => kv.1.data ++ ':' :: kv.2.data)) found = .ok m
        ∧ ∀ p ∈ ps, m p.Name = appOpt (found p.Name) (cfgCollect p kvs) := by
  intro kvs
  induction kvs with
  | nil =>
    intro found _
    refine ⟨found, rfl, ?_⟩
    intro p _
    simp [cfgCollect, appOpt_nil]
  | cons kv kvs ih =>
    intro found h
    have hwf : WfKV (kv.1, kv.2) := h kv (List.mem_cons_self _ _)
    rw [List.map_cons, readConfigLines_cons_wf ps kv.1 kv.2 _ found hwf]
    obtain ⟨m, hm, hall⟩ :=
      ih (cfgRecord kv.1.data kv.2 ps found) (fun x hx => h x (List.mem_cons_of_mem _ hx))
    refine ⟨m, hm, ?_⟩
    intro p hp
    rw [hall p hp, cfgRecord_at kv.1.data kv.2 ps found p hp hnd]
    by_cases hs : kv.1.data.isSuffixOf p.Name.data = true
    · rw [if_pos hs]
      have hcol : cfgCollect p (kv :: kvs) = kv.2 :: cfgCollect p kvs := by
        unfold cfgCollect
        rw [List.filterMap_cons, if_pos hs]
      rw [hcol, ← appOpt_cons, appOpt_single]
    · rw [if_neg hs]
      have hcol : cfgCollect p (kv :: kvs) = cfgCollect p kvs := by
        unfold cfgCollect
        rw [List.filterMap_cons, if_neg hs]
      rw [hcol]

/-- The derived environment key is a function of the Name alone. -/
theorem envKeyStr_congr (appName : String) (p q : Param) (h : p.Name = q.Name) :
    envKeyStr appName p = envKeyStr appName q := by
  unfold envKeyStr configNameStr
  rw [h]

/-- The environment scan over entries that all carry an equals sign:
every registered Name ends up with its prior values extended by the
exactly-matched values in scan order, provided the derived keys of the
registry are pairwise distinct (as the Go reverse map presumes). -/
theorem readEnvAux_wf (appName : String) (ps : List Param)
    (hinj : (ps.map (envKeyStr appName)).Nodup) :
    ∀ (environ : List String) (found : Found), (∀ e ∈ environ, '=' ∈ e.data) →
      ∃ m, readEnvAux appName ps environ found = some m
        ∧ ∀ p ∈ ps, m p.Name = appOpt (found p.Name) (envCollect appName p environ) := by
  intro environ
  induction environ with
  | nil =>
    intro found _
    refine ⟨found, rfl, fun p _ => ?_⟩
    simp [envCollect, appOpt_nil]
  | cons e es ih =>
    intro found h
    have he : '=' ∈ e.data := h e (List.mem_cons_self _ _)
    cases hsp : splitFirstC '=' e.data with
    | none => exact absurd he ((splitFirstC_eq_none_iff '=' e.data).mp hsp)
    | some kv =>
      cases hf : ps.find? (fun q => envKeyStr appName q == (⟨kv.1⟩ : String)) with
      | some q =>
        have hqmem : q ∈ ps := List.mem_of_find?_eq_some hf
        have hq0 := List.find?_some hf
        have hqkey : envKeyStr appName q = (⟨kv.1⟩ : String) := eq_of_beq hq0
        obtain ⟨m, hm, hall⟩ :=
          ih (updAppend found q.Name (⟨kv.2⟩ : String))
            (fun x hx => h x (List.mem_cons_of_mem _ hx))
        refine ⟨m, ?_, ?_⟩
        · simp only [readEnvAux, hsp, hf]
          exact hm
        · intro p hp
          rw [hall p hp]
          by_cases hk : (⟨kv.1⟩ : String) = envKeyStr appName p
          · have hqp : q = p := List.inj_on_of_nodup_map hinj hqmem hp (hqkey.trans hk)
            subst hqp
            have hcol : envCollect appName q (e :: es)
                = (⟨kv.2⟩ : String) :: envCollect appName q es := by
              unfold envCollect
              simp only [List.filterMap_cons, hsp]
              rw [if_pos hk]
            rw [hcol, ← appOpt_cons, appOpt_single]
            have hupd : updAppend found q.Name (⟨kv.2⟩ : String) q.Name
                = some ((found q.Name).getD [] ++ [(⟨kv.2⟩ : String)]) := by
              unfold updAppend
              rw [if_pos rfl]
            rw [hupd]
          · have hqp : q.Name ≠ p.Name := by
              intro he2
              apply hk
              rw [← hqkey]
              exact envKeyStr_congr appName q p he2
            have hupd : updAppend found q.Name (⟨kv.2⟩ : String) p.Name = found p.Name := by
              unfold updAppend
              rw [if_neg (Ne.symm hqp)]
            have hcol : envCollect appName p (e :: es) = envCollect appName p es := by
              unfold envCollect
              simp only [List.filterMap_cons, hsp]
              rw [if_neg hk]
            rw [hcol, hupd]
      | none =>
        obtain ⟨m, hm, hall⟩ := ih found (fun x hx => h x (List.mem_cons_of_mem _ hx))
        refine ⟨m, ?_, ?_⟩
        · simp only [readEnvAux, hsp, hf]
          exact hm
        · intro p hp
          rw [hall p hp]
          have hnp : ¬(envKeyStr appName p == (⟨kv.1⟩ : String)) = true :=
            List.find?_eq_none.mp hf p hp
          have hk : (⟨kv.1⟩ : String) ≠ envKeyStr appName p := by
            intro he2
            apply hnp
            rw [← he2]
            exact beq_self_eq_true _
          have hcol : envCollect appName p (e :: es) = envCollect appName p es := by
            unfold envCollect
            simp only [List.filterMap_cons, hsp]
            rw [if_neg hk]
          rw [hcol]

end Lever

namespace Lever

/-- C1.  The claim reads a flag declared with Default "true" as: invoked
on the command line, ParamFlag is false; omitted everywhere, ParamFlag
is true.  The code does the exact opposite: readCLI records the string
"false" for the invocation, merging fills "true" from the default when
omitted, and ParamFlag then maps "false" back to the declared default
(true) and "true" to its negation (false) — the inversion is applied
twice.  This contradicts the ParamFlag doc comment ("The param need only
be set ... to take on the opposite value of its Default"), so the claim
is right and the code wrong; this theorem evaluates the code at the
failing inputs. -/
theorem paramFlag_defaultTrue_inverted :
    (ParseSim "app" regFlagTrue ["--f"] [] emptyFound).map
        (fun r => ParamFlag regFlagTrue r.1 "--f") = some (some true)
      ∧ (ParseSim "app" regFlagTrue [] [] emptyFound).map
        (fun r => ParamFlag regFlagTrue r.1 "--f") = some (some false) := by
  constructor <;> rfl

/-- C2.  Per parameter name, the merged Final Mapping is the whole value
sequence of the highest-precedence source that has the name at all —
command line, else environment, else config file, else defaults — copied
verbatim, so no value of a lower-precedence source survives beside it. -/
theorem finalMerge_precedence (cli env file defs : Found) (n : String) :
    FinalMerge cli env file defs n = orO (cli n) (orO (env n) (orO (file n) (defs n))) := by
  unfold FinalMerge mergeFound orO
  cases cli n <;> cases env n <;> cases file n <;> rfl

/-- C3, amended.  The key of a config line matches a declared parameter
exactly when the raw canonical Name — delimiters included, not the
file-name form — ends with the key; every matching parameter receives
the trimmed value, in line order.  Stated over any stream assembled from
well-formed key and value pairs and any registry without duplicate
names. -/
theorem config_key_matches_raw_name_suffix (ps : List Param) (kvs : List (String × String))
    (hnd : (ps.map Param.Name).Nodup) (hwf : ∀ kv ∈ kvs, WfKV kv) :
    ∃ m, readConfig ps (mkConfig kvs) = .ok m
      ∧ ∀ p ∈ ps, m p.Name = listToOpt (cfgCollect p kvs) := by
  obtain ⟨m, hm, hall⟩ := readConfigLines_wf ps hnd kvs emptyFound hwf
  refine ⟨m, ?_, ?_⟩
  · rw [readConfig, configLinesD_mkConfig kvs hwf]
    exact hm
  · intro p hp
    rw [hall p hp]
    rfl

/-- C3 witness: with --bar registered, the keys bar and ar both match by
raw-name suffix and collect their values in line order. -/
theorem config_key_matches_raw_name_suffix_witness :
    ∃ m, readConfig regBar (mkConfig [("bar", "a"), ("ar", "b")]) = .ok m
      ∧ ∀ p ∈ regBar, m p.Name = listToOpt (cfgCollect p [("bar", "a"), ("ar", "b")]) :=
  config_key_matches_raw_name_suffix regBar [("bar", "a"), ("ar", "b")]
    (by decide) (by decide)

/-- C4.  The claim (and the DisallowInConfigFile doc comment: the
parameter "will not be allowed to be set" in the config file) says the
config parser never yields an entry for such a parameter, but readConfig
never consults the field: with the registry New builds, the line
"config:x" sets the --config parameter, whose DisallowInConfigFile is
true. -/
theorem disallowInConfigFile_not_enforced :
    (configParamOf "").DisallowInConfigFile = true
      ∧ foundOf (readConfig (NewParams false "" []) "config:x\n") "--config"
        = some ["x"] := by
  constructor <;> rfl

/-- C6.  An environment entry KEY=VALUE is recorded for a declared
parameter exactly when KEY equals the uppercased appName joined by an
underscore to the uppercased file-name form of the parameter, dashes
mapped to underscores in both — exact equality, no alias or suffix
matching — and the values arrive in scan order.  Stated for entries that
all contain an equals sign and registries with pairwise-distinct derived
keys, the regime in which the Go reverse map is faithful. -/
theorem env_exact_key_only (appName : String) (ps : List Param) (environ : List String)
    (hinj : (ps.map (envKeyStr appName)).Nodup)
    (hsplit : ∀ e ∈ environ, '=' ∈ e.data) :
    ∃ m, readEnv appName ps environ = some m
      ∧ ∀ p ∈ ps, m p.Name = listToOpt (envCollect appName p environ) := by
  obtain ⟨m, hm, hall⟩ := readEnvAux_wf appName ps hinj environ emptyFound hsplit
  exact ⟨m, hm, fun p hp => by rw [hall p hp]; rfl⟩

/-- C6 witness: TEST_APP_FOO_BAR=okthen matches --foo-bar under appName
test-app, while TEST_APP_FOOBAR=x and HOME=y do not. -/
theorem env_exact_key_only_witness :
    ∃ m, readEnv "test-app" [fooBarP]
        ["TEST_APP_FOO_BAR=okthen", "TEST_APP_FOOBAR=x", "HOME=y"] = some m
      ∧ ∀ p ∈ [fooBarP], m p.Name = listToOpt (envCollect "test-app" p
        ["TEST_APP_FOO_BAR=okthen", "TEST_APP_FOOBAR=x", "HOME=y"]) :=
  env_exact_key_only "test-app" [fooBarP]
    ["TEST_APP_FOO_BAR=okthen", "TEST_APP_FOOBAR=x", "HOME=y"] (by decide) (by decide)

/-- C8.  A parameter declared with an empty non-nil DefaultMulti and set
by no source resolves to a present-but-empty sequence, and ParamStr and
ParamInt then evaluate vs[0] on the empty list — the out-of-range panic,
modelled as none — instead of reporting not-found. -/
theorem paramStr_empty_multi_panics :
    (ParseSim "app" regByz [] [] emptyFound).map
        (fun r => (r.1 "--byz", ParamStr r.1 "--byz", ParamInt r.1 "--byz"))
      = some (some [], none, none) := by
  rfl

/-- C3, counterexample.  The key "-bar" is not a suffix of the file-name
form "bar" of the parameter --bar, so under the claim the line
"-bar:v" must not set it; the code matches suffixes of the raw Name
"--bar" instead and does set it. -/
theorem configSuffix_fileNameForm_refuted :
    specConfigMatch ⟨"--bar", [], "", none, false, false⟩ "-bar" = false
      ∧ foundOf (readConfig regBar "-bar:v\n") "--bar" = some ["v"] := by
  constructor <;> rfl

/-- C5, counterexample.  The stream "abc" consists of one non-empty,
non-comment line with no colon, yet the parse does not fail: the line is
unterminated, the readConfig loop breaks at io.EOF before processing it,
and the empty result is returned. -/
theorem configMalformed_unterminated_not_error :
    trimC "abc".data ≠ [] ∧ (trimC "abc".data).head? ≠ some '#'
      ∧ ("abc".data.contains ':') = false
      ∧ readConfig regBar "abc" = .ok emptyFound := by
  refine ⟨by decide, by decide, by decide, rfl⟩

/-- C9.  Characters after the last newline of the stream — in particular
a non-empty unterminated final line — contribute nothing and raise no
error: the parse result is that of the terminated part alone. -/
theorem config_unterminated_tail_ignored (ps : List Param) (s tail : String)
    (h : '\n' ∉ tail.data) :
    readConfig ps (s ++ tail) = readConfig ps s := by
  unfold readConfig configLinesD
  rw [show (s ++ tail).data = s.data ++ tail.data from rfl,
    linesAux_append_no_newline _ _ _ h]

/-- C9 witness: a trailing chunk after the last newline changes
nothing. -/
theorem config_unterminated_tail_ignored_witness :
    readConfig regBar ("bar:v\n" ++ "junk") = readConfig regBar "bar:v\n" :=
  config_unterminated_tail_ignored regBar "bar:v\n" "junk" (by decide)

/-- The environment scan dies on an entry with no equals sign, whatever
the found state reached so far. -/
theorem readEnvAux_missing_eq (appName : String) (ps : List Param) :
    ∀ (environ : List String) (found : Found) (e : String),
      e ∈ environ → '=' ∉ e.data → readEnvAux appName ps environ found = none := by
  intro environ
  induction environ with
  | nil => intro _ e he _; cases he
  | cons e0 es ih =>
    intro found e he hq
    rcases List.mem_cons.mp he with rfl | hes
    · unfold readEnvAux
      rw [(splitFirstC_eq_none_iff '=' e.data).mpr hq]
    · cases hsp : splitFirstC '=' e0.data with
      | none => simp [readEnvAux, hsp]
      | some kv =>
        simp only [readEnvAux, hsp]
        cases ps.find? (fun p => envKeyStr appName p == (⟨kv.1⟩ : String)) with
        | some p => exact ih _ e hes hq
        | none => exact ih _ e hes hq

/-- C10.  An environment list containing an entry without an equals sign
makes readEnv evaluate parts[1] on a one-element split — the
out-of-range Go panic, modelled as none — rather than skip the entry or
return an error value. -/
theorem readEnv_missing_eq_panics (appName : String) (ps : List Param)
    (environ : List String) (e : String) (he : e ∈ environ) (hq : '=' ∉ e.data) :
    readEnv appName ps environ = none :=
  readEnvAux_missing_eq appName ps environ emptyFound e he hq

/-- C10 witness: a concrete malformed environment entry. -/
theorem readEnv_missing_eq_panics_witness :
    readEnv "app" regBar ["HOME=x", "NOEQUALS"] = none :=
  readEnv_missing_eq_panics "app" regBar ["HOME=x", "NOEQUALS"] "NOEQUALS"
    (by decide) (by decide)

/-- A malformed processed line aborts the whole line loop with the error
quoting it, for any found state reached before it. -/
theorem readConfigLines_malformed (ps : List Param) :
    ∀ (ls : List (List Char)) (found : Found),
      (∃ l ∈ ls, MalformedLine l) →
      ∃ l ∈ ls, MalformedLine l ∧
        readConfigLines ps ls found
          = .error ("could not parse line: " ++ (⟨trimC l⟩ : String)) := by
  intro ls
  induction ls with
  | nil =>
    rintro _ ⟨l, hl, _⟩
    cases hl
  | cons l0 ls ih =>
    intro found h
    by_cases ht : trimC l0 = []
    · have hstep : readConfigLines ps (l0 :: ls) found = readConfigLines ps ls found := by
        simp [readConfigLines, ht]
      obtain ⟨l, hl, hm⟩ := h
      rcases List.mem_cons.mp hl with rfl | hls
      · exact absurd ht hm.1
      · obtain ⟨l', hl', hm', he⟩ := ih found ⟨l, hls, hm⟩
        exact ⟨l', List.mem_cons_of_mem _ hl', hm', by rw [hstep]; exact he⟩
    · by_cases hh : (trimC l0).head? = some '#'
      · have hstep : readConfigLines ps (l0 :: ls) found = readConfigLines ps ls found := by
          simp [readConfigLines, ht, hh]
        obtain ⟨l, hl, hm⟩ := h
        rcases List.mem_cons.mp hl with rfl | hls
        · exact absurd hh hm.2.1
        · obtain ⟨l', hl', hm', he⟩ := ih found ⟨l, hls, hm⟩
          exact ⟨l', List.mem_cons_of_mem _ hl', hm', by rw [hstep]; exact he⟩
      · cases hsp : splitFirstC ':' (trimC l0) with
        | none =>
          refine ⟨l0, List.mem_cons_self l0 ls, ⟨ht, hh, hsp⟩, ?_⟩
          simp [readConfigLines, ht, hh, hsp]
        | some kv =>
          have hstep : readConfigLines ps (l0 :: ls) found
              = readConfigLines ps ls (cfgRecord kv.1 (⟨trimC kv.2⟩ : String) ps found) := by
            simp [readConfigLines, ht, hh, hsp]
          obtain ⟨l, hl, hm⟩ := h
          rcases List.mem_cons.mp hl with rfl | hls
          · rw [hm.2.2] at hsp
            cases hsp
          · obtain ⟨l', hl', hm', he⟩ :=
              ih (cfgRecord kv.1 (⟨trimC kv.2⟩ : String) ps found) ⟨l, hls, hm⟩
            exact ⟨l', List.mem_cons_of_mem _ hl', hm', by rw [hstep]; exact he⟩

/-- C5, amended.  If any newline-terminated line of the stream is, after
trimming, non-empty, not a comment and without a colon, the whole parse
fails with the error quoting such a line and no found map is returned. -/
theorem config_malformed_terminated_line_errors (ps : List Param) (s : String)
    (h : ∃ l ∈ configLinesD s, MalformedLine l) :
    ∃ l ∈ configLinesD s, MalformedLine l ∧
      readConfig ps s = .error ("could not parse line: " ++ (⟨trimC l⟩ : String)) :=
  readConfigLines_malformed ps (configLinesD s) emptyFound h

/-- C5 witness: a concrete malformed terminated line. -/
theorem config_malformed_terminated_line_errors_witness :
    ∃ l ∈ configLinesD "bar:ok\nnope\n", MalformedLine l ∧
      readConfig regBar "bar:ok\nnope\n"
        = .error ("could not parse line: " ++ (⟨trimC l⟩ : String)) :=
  config_malformed_terminated_line_errors regBar "bar:ok\nnope\n" (by decide)

/-- C7, counterexample.  For the parameter literally named "--" the two
spellings diverge: "--=v" records the value v under it with an empty
remainder, while the token pair "--", "v" hits the stop-scanning
sentinel first, records nothing and leaves v in the remainder. -/
theorem cli_eqForm_sentinel_refuted :
    (readCLI regDashDash ["--=v"]).1 "--" = some ["v"]
      ∧ (readCLI regDashDash ["--=v"]).2 = []
      ∧ (readCLI regDashDash ["--", "v"]).1 "--" = none
      ∧ (readCLI regDashDash ["--", "v"]).2 = ["v"] := by
  refine ⟨rfl, rfl, rfl, rfl⟩

/-- C7, amended.  For a declared non-flag parameter whose name is not
the literal stop-scanning token "--", a value passed as the single token
name=value and one passed as the consecutive tokens name, value produce
the same scan continuation — hence the same found mapping and remainder —
from any scan state and with any following tokens. -/
theorem cli_eqForm_pair_agree (ps : List Param) (name value : String)
    (rest : List String) (found : Found) (remaining : List String) (p : Param)
    (hl : lookupFull ps name = some p) (hf : p.Flag = false) (hn : name ≠ "--")
    (h1 : '=' ∉ name.data) (h2 : '=' ∉ value.data)
    (h3 : ∀ c ∈ value.data, isSpc c = false) :
    readCLIAux ps ((name ++ "=" ++ value) :: rest) found remaining
      = readCLIAux ps (name :: value :: rest) found remaining := by
  have hd : (name ++ "=" ++ value).data = name.data ++ '=' :: value.data := by
    simp [String.data_append]
  have hne : (name ++ "=" ++ value) ≠ "--" := by
    intro he
    have hmem : '=' ∈ (name ++ "=" ++ value).data := by
      rw [hd]
      exact List.mem_append_right _ (List.mem_cons_self _ _)
    rw [he] at hmem
    exact absurd hmem (by decide)
  have hsp1 : splitEq (name ++ "=" ++ value) = (name, some value) := by
    unfold splitEq
    rw [hd, splitFirstC_append '=' _ _ h1]
  have hsp2 : splitEq name = (name, none) := by
    unfold splitEq
    rw [(splitFirstC_eq_none_iff '=' name.data).mpr h1]
  simp only [readCLIAux]
  rw [if_neg hne, if_neg hn]
  simp [hsp1, hsp2, hl, hf]

/-- C7 witness: --bar=v and the pair --bar, v scan identically. -/
theorem cli_eqForm_pair_agree_witness :
    readCLIAux regBar [("--bar" ++ "=" ++ "v")] emptyFound []
      = readCLIAux regBar ["--bar", "v"] emptyFound [] :=
  cli_eqForm_pair_agree regBar "--bar" "v" [] emptyFound []
    ⟨"--bar", [], "", none, false, false⟩ (by decide) (by decide) (by decide)
    (by decide) (by decide) (by decide)

end Lever
